import Mathlib

/-!
# lotterytest.c — lottery scheduler validation harness (xv6)

A shallow embedding of the measurement and analysis code of `lotterytest.c`.

Modelling conventions
* A C `int` is a Lean `Int` kept in the range `[-2^31, 2^31)`; every `+`, `-`, `*`
  of the source is followed by `wrap32` (two's complement wrap-around, which is what
  the x86 instructions emitted for xv6 do).
* `/` on `int` is `cdiv`: truncation toward zero, and the x86 `idiv` divide-error
  trap when the divisor is `0` or the quotient does not fit (`INT_MIN / -1`).
* The global arrays `process_tickets`, `process_pids` and the local `process_ticks`
  are lists whose length is `num_processes`.
* `struct pstat` and `NPROC` come from headers that are not part of the source file;
  the table is taken as three arrays indexed by `Nat` and `NPROC` is a parameter.
* Text written by `printf` is not modelled; the values handed to `printf` are.
-/

namespace LotteryTest

/-! ## C integer arithmetic -/

/-- Largest value of a C `int`. -/
def INT_MAX : Int := 2147483647

/-- Smallest value of a C `int`. -/
def INT_MIN : Int := -2147483648

/-- Two's complement reduction of a mathematical integer to a 32-bit `int`. -/
def wrap32 (x : Int) : Int := (x + 2147483648) % 4294967296 - 2147483648

/-- Faults raised by the processor while the program runs. -/
inductive Trap where
  | divide_error
  deriving DecidableEq, Repr

deriving instance DecidableEq for Except

/-- C `a / b` on `int`: traps on a zero divisor and on `INT_MIN / -1`,
otherwise truncates toward zero. -/
def cdiv (a b : Int) : Except Trap Int :=
  if b = 0 then .error .divide_error
  else if a = INT_MIN ∧ b = -1 then .error .divide_error
  else .ok (Int.tdiv a b)

/-- C `a % b` on `int` (the sign follows the dividend), with the same traps as `/`. -/
def cmod (a b : Int) : Except Trap Int :=
  if b = 0 then .error .divide_error
  else if a = INT_MIN ∧ b = -1 then .error .divide_error
  else .ok (Int.tmod a b)

/-! ## Constants -/

def DEFAULT_P1_TICKETS : Int := 30
def DEFAULT_P2_TICKETS : Int := 20
def DEFAULT_P3_TICKETS : Int := 10
def RUNTIME : Int := 7000
def MAX_PROCESSES : Nat := 32

/-! ## `str_to_int` and configuration resolution in `main` -/

/-- The `while` loop of `str_to_int`: consume leading decimal digits. Reading past the
last character meets the terminating NUL, which is not a digit. -/
def str_to_int_loop : List Char → Int → Int
  | [], result => result
  | c :: rest, result =>
    if '0' ≤ c ∧ c ≤ '9' then
      str_to_int_loop rest (wrap32 (wrap32 (result * 10) + ((c.toNat : Int) - 48)))
    else result

/-- `int str_to_int(char* str)`. -/
def str_to_int (str : String) : Int := str_to_int_loop str.toList 0

/-- `int get_total_tickets(void)` over `process_tickets[0 .. num_processes)`. -/
def get_total_tickets (process_tickets : List Int) : Int :=
  process_tickets.foldl (fun total t => wrap32 (total + t)) 0

/-- The two fatal configuration errors reported by `main` before it calls `exit()`. -/
inductive ConfigError where
  | too_many_processes (got : Nat)
  | invalid_ticket_count (arg : String)
  deriving DecidableEq, Repr

/-- The parsing loop of `main` (lines 379-386): fills `process_tickets[i]` from
`argv[i + 1]` and exits at the first value that is `<= 0`. -/
def parse_tickets : List String → Except ConfigError (List Int)
  | [] => .ok []
  | arg :: rest =>
    let t := str_to_int arg
    if t ≤ 0 then .error (.invalid_ticket_count arg)
    else
      match parse_tickets rest with
      | .error e => .error e
      | .ok ts => .ok (t :: ts)

/-- Configuration resolution at the top of `main` (lines 368-395); `args` is
`argv[1 .. argc)`. The result is `process_tickets[0 .. num_processes)`. -/
def resolve (args : List String) : Except ConfigError (List Int) :=
  if args.length > 0 then
    if args.length > MAX_PROCESSES then .error (.too_many_processes args.length)
    else parse_tickets args
  else .ok [DEFAULT_P1_TICKETS, DEFAULT_P2_TICKETS, DEFAULT_P3_TICKETS]

/-! ## Scheduler statistics table and tick extraction -/

/-- The fields of `struct pstat` read by the program, as arrays indexed by table slot.
The header declaring it is not part of the source file; only `inuse`, `pid` and
`ticks` are used. -/
structure pstat where
  inuse : Nat → Int
  pid : Nat → Int
  ticks : Nat → Int

/-- The inner `for (j ...)` loop with its `break` (lines 148-154, 461-467): the first
slot index `j`, counted from `j0`, whose tracked pid equals `pid`. -/
def find_slot (pid : Int) : List Int → Nat → Option Nat
  | [], _ => none
  | p :: rest, j0 => if pid = p then some j0 else find_slot pid rest (j0 + 1)

/-- One iteration of the outer `for (i ...)` loop over the table (lines 146-156,
459-469), acting on `(process_ticks, total)`. -/
def extract_step (process_pids : List Int) (st : pstat) (acc : List Int × Int) (i : Nat) :
    List Int × Int :=
  if st.inuse i ≠ 0 then
    match find_slot (st.pid i) process_pids 0 with
    | some j => (acc.1.set j (st.ticks i), wrap32 (acc.2 + st.ticks i))
    | none => acc
  else acc

/-- Tick extraction: the zero-initialisation of `process_ticks` followed by the scan of
the `NPROC` table slots. Returns `(process_ticks, total)`. -/
def extract_ticks (process_pids : List Int) (st : pstat) (NPROC : Nat) : List Int × Int :=
  (List.range NPROC).foldl (extract_step process_pids st)
    (List.replicate process_pids.length 0, 0)

/-! ## `simple_str_copy`, `simple_int_to_str`, `get_live_stats` -/

/-- The digit loop of `simple_int_to_str` (`temp[i++] = '0' + num % 10; num /= 10`),
least significant digit first. The loop runs while `num > 0`; `fuel` bounds the
number of iterations. -/
def digits_rev : Nat → Nat → List Char
  | 0, _ => []
  | fuel + 1, num =>
    if num = 0 then [] else Char.ofNat (48 + num % 10) :: digits_rev fuel (num / 10)

/-- Characters stored by `simple_str_copy(dest, src)`; its return value is their count. -/
def simple_str_copy (src : List Char) : List Char := src

/-- Characters stored by `simple_int_to_str(dest, prefix, num)`; its return value is their
count. A negative `num` enters neither digit loop, so only the prefix is stored. -/
def simple_int_to_str (pre : List Char) (num : Int) : List Char :=
  pre ++ (if num = 0 then ['0']
          else if 0 < num then (digits_rev num.toNat num.toNat).reverse
          else [])

/-- The string-building loop of `get_live_stats` (lines 162-175), for slots
`i, i+1, ...` with tick counts `ticks`; `n` is `num_processes`. -/
def live_stats_loop (n : Nat) (total : Int) : List Int → Nat → Except Trap (List Char)
  | [], _ => .ok []
  | t :: rest, i =>
    match cdiv (wrap32 (t * 100)) total with
    | .error e => .error e
    | .ok pct =>
      match live_stats_loop n total rest (i + 1) with
      | .error e => .error e
      | .ok tail =>
        .ok (simple_int_to_str ['P'] (wrap32 ((i : Int) + 1))
          ++ simple_str_copy ['=']
          ++ simple_int_to_str [] t
          ++ simple_int_to_str [' ', '('] pct
          ++ simple_str_copy ['%', ')']
          ++ (if (i : Int) < (n : Int) - 1 then simple_str_copy [',', ' '] else [])
          ++ tail)

/-- Size of the global `stats_buffer`. -/
def STATS_BUFFER_SIZE : Nat := 200

/-- `char* get_live_stats(void)` after a successful `getpinfo`: `none` is the null pointer
returned when `total <= 0`, otherwise the characters stored from the start of
`stats_buffer` onwards. -/
def get_live_stats (process_pids : List Int) (st : pstat) (NPROC : Nat) :
    Except Trap (Option (List Char)) :=
  let r := extract_ticks process_pids st NPROC
  if 0 < r.2 then
    match live_stats_loop process_pids.length r.2 r.1 0 with
    | .error e => .error e
    | .ok text => .ok (some text)
  else .ok none

/-! ## `print_visual_results`, `print_accuracy_analysis` -/

/-- The expression `(process_tickets[i] * 100) / total_tickets` (line 286, also lines 83
and 90 of `print_test_setup`). -/
def expected_pct (total_tickets : Int) (t : Int) : Except Trap Int :=
  cdiv (wrap32 (t * 100)) total_tickets

/-- The expression `(process_ticks[i] * 100) / total_ticks` (lines 236, 252, 287). -/
def actual_pct (total_ticks : Int) (k : Int) : Except Trap Int :=
  cdiv (wrap32 (k * 100)) total_ticks

/-- Sequential evaluation of a fallible per-slot computation, stopping at the first trap. -/
def each_slot {α β : Type} (f : α → Except Trap β) : List α → Except Trap (List β)
  | [] => .ok []
  | a :: rest =>
    match f a with
    | .error e => .error e
    | .ok b =>
      match each_slot f rest with
      | .error e => .error e
      | .ok bs => .ok (b :: bs)

/-- One bar of the visual distribution: `bar_length` and `pct` (lines 251-252). -/
def bar_row (total_ticks : Int) (k : Int) : Except Trap (Int × Int) :=
  match cdiv (wrap32 (k * 40)) total_ticks with
  | .error e => .error e
  | .ok bar_length =>
    match actual_pct total_ticks k with
    | .error e => .error e
    | .ok pct => .ok (bar_length, pct)

/-- The values `print_visual_results` computes: the percentage column of the table
(line 236) and then the bars (lines 250-258). -/
def print_visual_results (process_ticks : List Int) (total_ticks : Int) :
    Except Trap (List Int × List (Int × Int)) :=
  match each_slot (actual_pct total_ticks) process_ticks with
  | .error e => .error e
  | .ok pcts =>
    match each_slot (bar_row total_ticks) process_ticks with
    | .error e => .error e
    | .ok bars => .ok (pcts, bars)

/-- One row of the accuracy table. -/
structure AccuracyRow where
  expected : Int
  actual : Int
  deviation : Int
  deriving DecidableEq, Repr

/-- The loop of lines 285-297 over the slots, threading `total_deviation`. -/
def accuracy_loop (total_tickets total_ticks : Int) :
    List Int → List Int → Int → Except Trap (List AccuracyRow × Int)
  | t :: ts, k :: ks, total_deviation =>
    match expected_pct total_tickets t with
    | .error e => .error e
    | .ok expected =>
      match actual_pct total_ticks k with
      | .error e => .error e
      | .ok actual =>
        let deviation := wrap32 (actual - expected)
        let total_deviation :=
          if deviation < 0 then wrap32 (total_deviation + wrap32 (-deviation))
          else wrap32 (total_deviation + deviation)
        match accuracy_loop total_tickets total_ticks ts ks total_deviation with
        | .error e => .error e
        | .ok (rows, td) => .ok (⟨expected, actual, deviation⟩ :: rows, td)
  | _, _, total_deviation => .ok ([], total_deviation)

/-- The minimum search of lines 322-328 over one array. -/
def min_of (first : Int) (rest : List Int) : Int :=
  rest.foldl (fun m x => if x < m then x else m) first

/-- The expected ratios of lines 332-336: `(process_tickets[i] * 10) / min_tickets`. -/
def expected_ratios (process_tickets : List Int) : Except Trap (List Int) :=
  let min_tickets := min_of (process_tickets.headD 0) process_tickets.tail
  each_slot (fun t => cdiv (wrap32 (t * 10)) min_tickets) process_tickets

/-- The actual ratios of lines 340-344: `(process_ticks[i] * 10) / min_ticks`. -/
def actual_ratios (process_ticks : List Int) : Except Trap (List Int) :=
  let min_ticks := min_of (process_ticks.headD 0) process_ticks.tail
  each_slot (fun k => cdiv (wrap32 (k * 10)) min_ticks) process_ticks

/-- What `print_accuracy_analysis` computes. -/
structure AccuracyReport where
  rows : List AccuracyRow
  total_deviation : Int
  accuracy : Int
  ratios : Option (List Int × List Int)
  deriving DecidableEq, Repr

/-- `void print_accuracy_analysis(int process_ticks[], int total_ticks)`. -/
def print_accuracy_analysis (process_tickets process_ticks : List Int) (total_ticks : Int) :
    Except Trap AccuracyReport :=
  let total_tickets := get_total_tickets process_tickets
  match accuracy_loop total_tickets total_ticks process_tickets process_ticks 0 with
  | .error e => .error e
  | .ok (rows, total_deviation) =>
    match cdiv total_deviation (process_tickets.length : Int) with
    | .error e => .error e
    | .ok mean =>
      let accuracy := wrap32 (100 - mean)
      let min_ticks := min_of (process_ticks.headD 0) process_ticks.tail
      if 0 < min_ticks then
        match expected_ratios process_tickets with
        | .error e => .error e
        | .ok er =>
          match actual_ratios process_ticks with
          | .error e => .error e
          | .ok ar => .ok ⟨rows, total_deviation, accuracy, some (er, ar)⟩
      else .ok ⟨rows, total_deviation, accuracy, none⟩

/-- The end of `main` (lines 450-472) after a successful final `getpinfo`: tick
extraction, then `print_visual_results`, then `print_accuracy_analysis`. -/
def main_final (process_tickets process_pids : List Int) (final_st : pstat) (NPROC : Nat) :
    Except Trap ((List Int × List (Int × Int)) × AccuracyReport) :=
  let r := extract_ticks process_pids final_st NPROC
  match print_visual_results r.1 r.2 with
  | .error e => .error e
  | .ok v =>
    match print_accuracy_analysis process_tickets r.1 r.2 with
    | .error e => .error e
    | .ok a => .ok (v, a)

/-! ## `print_test_setup` and the start of `main` -/

/-- The values handed to `printf` in the second loop of `print_test_setup` (lines 90-93):
`expected` and the tenths digit `((process_tickets[i] * 1000) / total_tickets) % 10`. -/
def setup_row (total_tickets : Int) (t : Int) : Except Trap (Int × Int) :=
  match expected_pct total_tickets t with
  | .error e => .error e
  | .ok expected =>
    match cdiv (wrap32 (t * 1000)) total_tickets with
    | .error e => .error e
    | .ok q =>
      match cmod q 10 with
      | .error e => .error e
      | .ok tenths => .ok (expected, tenths)

/-- The values `print_test_setup` computes: `expected` for every slot in the first loop
(line 83), then `expected` and the tenths digit for every slot in the second loop. -/
def print_test_setup (process_tickets : List Int) : Except Trap (List (Int × Int)) :=
  let total_tickets := get_total_tickets process_tickets
  match each_slot (expected_pct total_tickets) process_tickets with
  | .error e => .error e
  | .ok _ => each_slot (setup_row total_tickets) process_tickets

/-- Number of `fork()` calls `main` performs (lines 403-412). The loop is reached only
when configuration resolution did not `exit()` and `print_header()` and
`print_test_setup()` (lines 397-398) returned; `print_header` only prints, while a divide
error in `print_test_setup` ends the process before any `fork()`. The loop then runs
`num_processes` times. -/
def fork_calls (args : List String) : Nat :=
  match resolve args with
  | .error _ => 0
  | .ok process_tickets =>
    match print_test_setup process_tickets with
    | .error _ => 0
    | .ok _ => process_tickets.length

/-! ## Specification-side definitions -/

/-- Decimal value of a run of digit characters as an unbounded integer: the number the
run denotes. -/
def decimal_value (digits : List Char) : Int :=
  digits.foldl (fun v c => v * 10 + ((c.toNat : Int) - 48)) 0

/-- The row of the accuracy report as the specification words it: floor percentages of
the ticket weight and of the final ticks, and their signed difference. -/
def spec_row (totalTickets sumTicks : Int) (w k : Int) : AccuracyRow :=
  ⟨Int.fdiv (w * 100) totalTickets, Int.fdiv (k * 100) sumTicks,
    Int.fdiv (k * 100) sumTicks - Int.fdiv (w * 100) totalTickets⟩

/-- Sum of the absolute deviations of a list of rows. -/
def abs_deviation_sum (rows : List AccuracyRow) : Int :=
  (rows.map (fun r => |r.deviation|)).sum

/-- Tick count of the last active entry with the given pid among the first `m` table
slots, and 0 when there is none: what the join of the statistics table against one
tracked worker id yields. -/
def last_active_ticks (st : pstat) (pid : Int) : Nat → Int
  | 0 => 0
  | m + 1 =>
    if st.inuse m ≠ 0 ∧ st.pid m = pid then st.ticks m else last_active_ticks st pid m

/-! ## Arithmetic and configuration lemmas -/

theorem wrap32_of_range {x : Int} (h1 : -2147483648 ≤ x) (h2 : x ≤ 2147483647) :
    wrap32 x = x := by
  unfold wrap32; omega

theorem wrap32_range (x : Int) : -2147483648 ≤ wrap32 x ∧ wrap32 x ≤ 2147483647 := by
  unfold wrap32; omega

theorem wrap32_wrap32_add (a b : Int) : wrap32 (wrap32 a + b) = wrap32 (a + b) := by
  unfold wrap32; omega

theorem cdiv_of_pos {a b : Int} (ha : 0 ≤ a) (hb : 0 < b) : cdiv a b = .ok (a / b) := by
  have h1 : b ≠ 0 := by omega
  have h2 : ¬ (a = INT_MIN ∧ b = -1) := by
    rintro ⟨_, h⟩; omega
  simp [cdiv, h1, h2, Int.tdiv_eq_ediv ha (le_of_lt hb)]

theorem foldl_wrap32_sum (l : List Int) (acc : Int) :
    l.foldl (fun total t => wrap32 (total + t)) (wrap32 acc) = wrap32 (acc + l.sum) := by
  induction l generalizing acc with
  | nil => simp
  | cons t ts ih =>
    simp only [List.foldl_cons, List.sum_cons]
    rw [wrap32_wrap32_add, ih, add_assoc]

theorem get_total_tickets_eq (l : List Int) : get_total_tickets l = wrap32 l.sum := by
  have h := foldl_wrap32_sum l 0
  have h0 : wrap32 0 = 0 := by decide
  rw [h0] at h
  simpa [get_total_tickets] using h

theorem sum_pos_of_pos {l : List Int} (hl : l ≠ []) (h : ∀ t ∈ l, 0 < t) : 0 < l.sum := by
  induction l with
  | nil => exact absurd rfl hl
  | cons t ts ih =>
    rw [List.sum_cons]
    have ht : 0 < t := h t (List.mem_cons_self _ _)
    by_cases hts : ts = []
    · subst hts; simpa using ht
    · have := ih hts (fun x hx => h x (List.mem_cons_of_mem _ hx))
      omega

theorem str_to_int_loop_range (cs : List Char) (r : Int)
    (hr : -2147483648 ≤ r ∧ r ≤ 2147483647) :
    -2147483648 ≤ str_to_int_loop cs r ∧ str_to_int_loop cs r ≤ 2147483647 := by
  induction cs generalizing r with
  | nil => simpa [str_to_int_loop] using hr
  | cons c rest ih =>
    unfold str_to_int_loop
    split
    · exact ih _ (wrap32_range _)
    · exact hr

theorem str_to_int_range (s : String) :
    -2147483648 ≤ str_to_int s ∧ str_to_int s ≤ 2147483647 :=
  str_to_int_loop_range _ _ (by decide)

theorem parse_tickets_ok {args : List String} {cfg : List Int}
    (h : parse_tickets args = .ok cfg) :
    cfg = args.map str_to_int ∧ ∀ a ∈ args, 0 < str_to_int a := by
  induction args generalizing cfg with
  | nil =>
    simp only [parse_tickets, Except.ok.injEq] at h
    subst h; simp
  | cons a rest ih =>
    simp only [parse_tickets] at h
    split at h
    · cases h
    · rename_i hpos
      split at h
      · cases h
      · rename_i ts hts
        simp only [Except.ok.injEq] at h
        obtain ⟨h1, h2⟩ := ih hts
        subst h
        refine ⟨by simp [h1], ?_⟩
        intro b hb
        rcases List.mem_cons.mp hb with rfl | hb
        · omega
        · exact h2 b hb

theorem parse_tickets_error {args : List String}
    (h : ∃ a ∈ args, str_to_int a ≤ 0) :
    ∃ pre a post, args = pre ++ a :: post ∧ (∀ b ∈ pre, 0 < str_to_int b) ∧
      str_to_int a ≤ 0 ∧ parse_tickets args = .error (.invalid_ticket_count a) := by
  induction args with
  | nil => obtain ⟨a, ha, _⟩ := h; cases ha
  | cons x rest ih =>
    by_cases hx : str_to_int x ≤ 0
    · exact ⟨[], x, rest, rfl, by simp, hx, by simp [parse_tickets, hx]⟩
    · obtain ⟨a, ha, hle⟩ := h
      have hrest : ∃ a ∈ rest, str_to_int a ≤ 0 := by
        rcases List.mem_cons.mp ha with rfl | ha
        · exact absurd hle hx
        · exact ⟨a, ha, hle⟩
      obtain ⟨pre, b, post, h1, h2, h3, h4⟩ := ih hrest
      refine ⟨x :: pre, b, post, by simp [h1], ?_, h3, ?_⟩
      · intro c hc
        rcases List.mem_cons.mp hc with rfl | hc
        · omega
        · exact h2 c hc
      · simp [parse_tickets, hx, h4]

/-! ## Claims on configuration resolution -/

theorem str_to_int_nondigit_head (s : String)
    (h : ∀ c ∈ s.toList.head?, ¬ ('0' ≤ c ∧ c ≤ '9')) : str_to_int s = 0 := by
  unfold str_to_int
  cases hs : s.toList with
  | nil => simp [str_to_int_loop]
  | cons c rest =>
    rw [hs] at h
    have := h c (by simp)
    simp [str_to_int_loop, this]

theorem parse_tickets_accept {args : List String} (h : ∀ a ∈ args, 0 < str_to_int a) :
    parse_tickets args = .ok (args.map str_to_int) := by
  induction args with
  | nil => rfl
  | cons a rest ih =>
    have ha : ¬ str_to_int a ≤ 0 := by
      have := h a (List.mem_cons_self _ _); omega
    simp only [parse_tickets, if_neg ha, ih (fun b hb => h b (List.mem_cons_of_mem _ hb)),
      List.map_cons]

theorem wrap32_digit_step (acc d : Int) :
    wrap32 (wrap32 (wrap32 acc * 10) + d) = wrap32 (acc * 10 + d) := by
  unfold wrap32; omega

theorem str_to_int_loop_digits (rest : List Char)
    (hrest : ∀ c ∈ rest.head?, ¬ ('0' ≤ c ∧ c ≤ '9')) :
    ∀ (digits : List Char) (acc : Int), (∀ c ∈ digits, '0' ≤ c ∧ c ≤ '9') →
      str_to_int_loop (digits ++ rest) (wrap32 acc)
        = wrap32 (digits.foldl (fun v c => v * 10 + ((c.toNat : Int) - 48)) acc) := by
  intro digits
  induction digits with
  | nil =>
    intro acc _
    cases rest with
    | nil => simp [str_to_int_loop]
    | cons c cs =>
      have := hrest c (by simp)
      simp [str_to_int_loop, this]
  | cons d ds ih =>
    intro acc hd
    have hd0 := hd d (List.mem_cons_self _ _)
    simp only [List.cons_append, str_to_int_loop, if_pos hd0, List.foldl_cons]
    rw [wrap32_digit_step]
    exact ih _ (fun c hc => hd c (List.mem_cons_of_mem _ hc))

theorem str_to_int_digits (digits rest : List Char)
    (hd : ∀ c ∈ digits, '0' ≤ c ∧ c ≤ '9')
    (hrest : ∀ c ∈ rest.head?, ¬ ('0' ≤ c ∧ c ≤ '9')) :
    str_to_int (String.mk (digits ++ rest)) = wrap32 (decimal_value digits) := by
  have h := str_to_int_loop_digits rest hrest digits 0 hd
  have h0 : wrap32 0 = 0 := by decide
  rw [h0] at h
  exact h

/-- C3 (as amended): for a non-empty argument list of at most 32 strings, resolution
reads each argument with `str_to_int`. If some argument has `str_to_int` value `<= 0`,
resolution fails with the invalid-ticket-count error carrying the literal text of the
first such argument, and `main` performs no `fork()`. If every argument has a positive
`str_to_int` value, the list is accepted with those values as weights. The `str_to_int`
value of a run of decimal digits followed by nothing or by text starting with a
non-digit is the decimal value of the run reduced to a 32-bit `int` (the trailing text
is ignored), hence that decimal value itself when it lies in `1 .. INT_MAX`; it is 0
for an argument that is empty or starts with a non-digit. -/
theorem resolve_invalid_ticket_count (args : List String)
    (hne : 0 < args.length) (hmax : args.length ≤ MAX_PROCESSES) :
    ((∃ a ∈ args, str_to_int a ≤ 0) →
      (∃ pre a post, args = pre ++ a :: post ∧ (∀ b ∈ pre, 0 < str_to_int b) ∧
        str_to_int a ≤ 0 ∧ resolve args = .error (.invalid_ticket_count a)) ∧
      fork_calls args = 0) ∧
    ((∀ a ∈ args, 0 < str_to_int a) → resolve args = .ok (args.map str_to_int)) ∧
    (∀ s : String, (∀ c ∈ s.toList.head?, ¬ ('0' ≤ c ∧ c ≤ '9')) → str_to_int s = 0) ∧
    (∀ digits rest : List Char, (∀ c ∈ digits, '0' ≤ c ∧ c ≤ '9') →
      (∀ c ∈ rest.head?, ¬ ('0' ≤ c ∧ c ≤ '9')) →
      str_to_int (String.mk (digits ++ rest)) = wrap32 (decimal_value digits) ∧
      (0 < decimal_value digits → decimal_value digits ≤ INT_MAX →
        str_to_int (String.mk (digits ++ rest)) = decimal_value digits)) := by
  refine ⟨?_, ?_, str_to_int_nondigit_head, ?_⟩
  · intro hbad
    obtain ⟨pre, a, post, h1, h2, h3, h4⟩ := parse_tickets_error hbad
    have hres : resolve args = .error (.invalid_ticket_count a) := by
      unfold resolve
      rw [if_pos hne, if_neg (by omega), h4]
    refine ⟨⟨pre, a, post, h1, h2, h3, hres⟩, ?_⟩
    simp [fork_calls, hres]
  · intro hgood
    unfold resolve
    rw [if_pos hne, if_neg (by omega), parse_tickets_accept hgood]
  · intro digits rest hd hrest
    have h := str_to_int_digits digits rest hd hrest
    refine ⟨h, ?_⟩
    intro h1 h2
    rw [h]
    unfold INT_MAX at h2
    exact wrap32_of_range (by omega) h2

/-- Witness for C3: `["10","0","5"]` fails reporting `"0"`, and no worker is forked. -/
theorem resolve_invalid_ticket_count_witness :
    (∃ pre a post, ["10", "0", "5"] = pre ++ a :: post ∧ (∀ b ∈ pre, 0 < str_to_int b) ∧
      str_to_int a ≤ 0 ∧ resolve ["10", "0", "5"] = .error (.invalid_ticket_count a)) ∧
    fork_calls ["10", "0", "5"] = 0 ∧
    resolve ["10", "0", "5"] = .error (.invalid_ticket_count "0") :=
  have h := (resolve_invalid_ticket_count ["10", "0", "5"] (by decide) (by decide)).1
    ⟨"0", by decide, by decide⟩
  ⟨h.1, h.2, by decide⟩

/-- Counterexample for C3: the argument `"12abc"` contains characters other than decimal
digits, yet resolution accepts it with weight 12 and one worker is forked. -/
theorem resolve_accepts_trailing_text :
    (∃ c ∈ "12abc".toList, ¬ ('0' ≤ c ∧ c ≤ '9')) ∧
    resolve ["12abc"] = .ok [12] ∧ fork_calls ["12abc"] = 1 :=
  ⟨⟨'a', by decide, by decide⟩, by decide, by decide⟩

set_option maxRecDepth 1000000 in
/-- The start of `main` on weights whose 32-bit total is 0: the arguments are accepted,
`print_test_setup` stops with a divide error, and no worker is forked. -/
theorem fork_calls_zero_total :
    resolve ["2147483647", "2147483647", "2"] = .ok [2147483647, 2147483647, 2] ∧
    get_total_tickets [2147483647, 2147483647, 2] = 0 ∧
    print_test_setup [2147483647, 2147483647, 2] = .error .divide_error ∧
    fork_calls ["2147483647", "2147483647", "2"] = 0 :=
  ⟨by decide, by decide, by decide, by decide⟩

set_option maxRecDepth 1000000 in
/-- The digit run of `"2147483648abc"` denotes 2147483648, which `str_to_int` reduces to
-2147483648, so the argument is rejected; `"99999999999abc"` is read as 1215752191 and
accepted. -/
theorem str_to_int_wraps :
    str_to_int "2147483648abc" = -2147483648 ∧
    resolve ["2147483648abc"] = .error (.invalid_ticket_count "2147483648abc") ∧
    resolve ["99999999999abc"] = .ok [1215752191] :=
  ⟨by decide, by decide, by decide⟩

/-- C4 (as amended): an accepted configuration has between 1 and 32 slots, every weight
is a positive `int`, the total computed by `get_total_tickets` is the sum of the
weights reduced to 32 bits, and that total is positive whenever the sum of the weights
is at most `INT_MAX`. -/
theorem resolve_ok_invariants (args : List String) (cfg : List Int)
    (h : resolve args = .ok cfg) :
    1 ≤ cfg.length ∧ cfg.length ≤ MAX_PROCESSES ∧
    (∀ t ∈ cfg, 0 < t ∧ t ≤ INT_MAX) ∧
    get_total_tickets cfg = wrap32 cfg.sum ∧
    (cfg.sum ≤ INT_MAX → get_total_tickets cfg = cfg.sum ∧ 0 < get_total_tickets cfg) := by
  have hcfg : 1 ≤ cfg.length ∧ cfg.length ≤ MAX_PROCESSES ∧ (∀ t ∈ cfg, 0 < t ∧ t ≤ INT_MAX) := by
    unfold resolve at h
    split at h
    · rename_i hlen
      split at h
      · cases h
      · rename_i hmax
        obtain ⟨h1, h2⟩ := parse_tickets_ok h
        subst h1
        refine ⟨by simpa using hlen, by simpa using hmax, ?_⟩
        intro t ht
        obtain ⟨a, ha, rfl⟩ := List.mem_map.mp ht
        exact ⟨h2 a ha, by have := (str_to_int_range a).2; simpa [INT_MAX] using this⟩
    · simp only [Except.ok.injEq] at h
      subst h
      decide
  obtain ⟨hl1, hl2, hpos⟩ := hcfg
  refine ⟨hl1, hl2, hpos, get_total_tickets_eq cfg, ?_⟩
  intro hsum
  have hne : cfg ≠ [] := by
    intro h0; subst h0; simp at hl1
  have hs := sum_pos_of_pos hne (fun t ht => (hpos t ht).1)
  have : get_total_tickets cfg = cfg.sum := by
    rw [get_total_tickets_eq]
    unfold INT_MAX at hsum
    exact wrap32_of_range (by omega) hsum
  exact ⟨this, by omega⟩

/-- Witness for C4: the empty argument list yields weights `{30,20,10}` with total 60. -/
theorem resolve_ok_invariants_witness :
    resolve [] = .ok [30, 20, 10] ∧ get_total_tickets [30, 20, 10] = 60 ∧
    0 < get_total_tickets [30, 20, 10] :=
  ⟨by decide, by decide,
    ((resolve_ok_invariants [] [30, 20, 10] (by decide)).2.2.2.2 (by decide)).2⟩

set_option maxRecDepth 1000000 in
/-- Counterexample for C4: the arguments `"2147483647" "1"` are accepted, both weights are
positive, and the total computed by `get_total_tickets` is `-2147483648`. -/
theorem resolve_ok_total_not_positive :
    resolve ["2147483647", "1"] = .ok [2147483647, 1] ∧
    get_total_tickets [2147483647, 1] = -2147483648 ∧
    ¬ (0 < get_total_tickets [2147483647, 1]) :=
  ⟨by decide, by decide, by decide⟩

/-! ## Accuracy analysis lemmas -/

theorem cdiv_pos_divisor (a : Int) {b : Int} (hb : 0 < b) : cdiv a b = .ok (Int.tdiv a b) := by
  have h1 : b ≠ 0 := by omega
  have h2 : ¬ (a = INT_MIN ∧ b = -1) := by
    rintro ⟨_, h⟩; omega
  simp [cdiv, h1, h2]

theorem each_slot_ok {α β : Type} (f : α → Except Trap β) (g : α → β) (l : List α)
    (h : ∀ a ∈ l, f a = .ok (g a)) : each_slot f l = .ok (l.map g) := by
  induction l with
  | nil => rfl
  | cons a rest ih =>
    simp only [each_slot, h a (List.mem_cons_self _ _),
      ih (fun x hx => h x (List.mem_cons_of_mem _ hx)), List.map_cons]

theorem pct_bounds {x W : Int} (hx : 0 ≤ x) (hxW : x ≤ W) (hW : 0 < W) :
    0 ≤ x * 100 / W ∧ x * 100 / W ≤ 100 := by
  constructor
  · exact Int.ediv_nonneg (by omega) (le_of_lt hW)
  · have : x * 100 / W < 101 := Int.ediv_lt_of_lt_mul hW (by omega)
    omega

theorem expected_pct_eq {t W : Int} (ht : 0 ≤ t) (ht100 : t * 100 ≤ 2147483647) (hW : 0 < W) :
    expected_pct W t = .ok (t * 100 / W) := by
  unfold expected_pct
  rw [wrap32_of_range (by omega) ht100, cdiv_of_pos (by omega) hW]

theorem actual_pct_eq {k T : Int} (hk : 0 ≤ k) (hk100 : k * 100 ≤ 2147483647) (hT : 0 < T) :
    actual_pct T k = .ok (k * 100 / T) := by
  unfold actual_pct
  rw [wrap32_of_range (by omega) hk100, cdiv_of_pos (by omega) hT]

theorem accuracy_loop_spec (W T : Int) (hW : 0 < W) (hT : 0 < T) :
    ∀ (tickets ticks : List Int) (td : Int), ticks.length = tickets.length →
      (∀ t ∈ tickets, 0 ≤ t ∧ t ≤ W ∧ t * 100 ≤ 2147483647) →
      (∀ k ∈ ticks, 0 ≤ k ∧ k ≤ T ∧ k * 100 ≤ 2147483647) →
      0 ≤ td → td + 100 * (tickets.length : Int) ≤ 2147483647 →
      accuracy_loop W T tickets ticks td =
        .ok (List.zipWith (spec_row W T) tickets ticks,
             td + abs_deviation_sum (List.zipWith (spec_row W T) tickets ticks)) ∧
      0 ≤ abs_deviation_sum (List.zipWith (spec_row W T) tickets ticks) ∧
      abs_deviation_sum (List.zipWith (spec_row W T) tickets ticks)
        ≤ 100 * (tickets.length : Int) := by
  intro tickets
  induction tickets with
  | nil =>
    intro ticks td _ _ _ _ _
    simp [accuracy_loop, abs_deviation_sum]
  | cons t ts ih =>
    intro ticks td hlen ht hk htd hbound
    cases ticks with
    | nil => simp at hlen
    | cons k ks =>
      obtain ⟨ht0, htW, ht100⟩ := ht t (List.mem_cons_self _ _)
      obtain ⟨hk0, hkT, hk100⟩ := hk k (List.mem_cons_self _ _)
      have he := pct_bounds ht0 htW hW
      have ha := pct_bounds hk0 hkT hT
      simp only [List.length_cons, Nat.cast_add, Nat.cast_one] at hbound
      have hdev : wrap32 (k * 100 / T - t * 100 / W) = k * 100 / T - t * 100 / W :=
        wrap32_of_range (by omega) (by omega)
      have habs := abs_le.mpr (show -100 ≤ k * 100 / T - t * 100 / W ∧
        k * 100 / T - t * 100 / W ≤ 100 from ⟨by omega, by omega⟩)
      have habs0 := abs_nonneg (k * 100 / T - t * 100 / W)
      have hstep : (if wrap32 (k * 100 / T - t * 100 / W) < 0
            then wrap32 (td + wrap32 (-wrap32 (k * 100 / T - t * 100 / W)))
            else wrap32 (td + wrap32 (k * 100 / T - t * 100 / W)))
          = td + |k * 100 / T - t * 100 / W| := by
        rw [hdev]
        split
        · rename_i hneg
          have hn : wrap32 (-(k * 100 / T - t * 100 / W)) = -(k * 100 / T - t * 100 / W) :=
            wrap32_of_range (by omega) (by omega)
          rw [hn, abs_of_neg hneg, wrap32_of_range (by omega) (by omega)]
        · rename_i hpos
          rw [abs_of_nonneg (by omega), wrap32_of_range (by omega) (by omega)]
      obtain ⟨ih1, ih2, ih3⟩ := ih ks (td + |k * 100 / T - t * 100 / W|)
        (by simpa using hlen)
        (fun x hx => ht x (List.mem_cons_of_mem _ hx))
        (fun x hx => hk x (List.mem_cons_of_mem _ hx))
        (by omega) (by omega)
      have hrow : spec_row W T t k =
          ⟨t * 100 / W, k * 100 / T, k * 100 / T - t * 100 / W⟩ := by
        simp [spec_row, Int.fdiv_eq_ediv _ (le_of_lt hW), Int.fdiv_eq_ediv _ (le_of_lt hT)]
      have hsum : abs_deviation_sum (List.zipWith (spec_row W T) (t :: ts) (k :: ks))
          = |k * 100 / T - t * 100 / W| + abs_deviation_sum (List.zipWith (spec_row W T) ts ks) := by
        simp [abs_deviation_sum, hrow]
      refine ⟨?_, ?_, ?_⟩
      · simp only [accuracy_loop, expected_pct_eq ht0 ht100 hW, actual_pct_eq hk0 hk100 hT]
        simp only [hdev] at hstep ⊢
        rw [hstep, ih1, hsum]
        simp [hrow, add_assoc]
      · rw [hsum]; omega
      · rw [hsum]; simp only [List.length_cons, Nat.cast_add, Nat.cast_one]; omega

theorem min_of_pos (rest : List Int) : ∀ first : Int, 0 < first → (∀ x ∈ rest, 0 < x) →
    0 < min_of first rest := by
  induction rest with
  | nil => intro first h _; simpa [min_of] using h
  | cons x xs ih =>
    intro first h hx
    have hx0 := hx x (List.mem_cons_self _ _)
    simp only [min_of, List.foldl_cons]
    split
    · exact ih x hx0 (fun y hy => hx y (List.mem_cons_of_mem _ hy))
    · exact ih first h (fun y hy => hx y (List.mem_cons_of_mem _ hy))

theorem min_tickets_pos {tickets : List Int} (hne : tickets ≠ []) (h : ∀ t ∈ tickets, 0 < t) :
    0 < min_of (tickets.headD 0) tickets.tail := by
  cases tickets with
  | nil => exact absurd rfl hne
  | cons t ts =>
    exact min_of_pos ts t (h t (List.mem_cons_self _ _))
      (fun y hy => h y (List.mem_cons_of_mem _ hy))

theorem ratios_ok (l : List Int) {m : Int} (hm : 0 < m) :
    each_slot (fun t => cdiv (wrap32 (t * 10)) m) l
      = .ok (l.map (fun t => Int.tdiv (wrap32 (t * 10)) m)) :=
  each_slot_ok _ _ l (fun _ _ => cdiv_pos_divisor _ hm)

theorem sum_le_int_max {l : List Int} (hn : l.length ≤ 32)
    (h : ∀ x ∈ l, x * 100 ≤ 2147483647) : l.sum ≤ 2147483647 := by
  have h1 : l.sum ≤ l.length • (21474836 : Int) :=
    List.sum_le_card_nsmul l 21474836 (fun x hx => by have := h x hx; omega)
  have h2 : (l.length : Int) ≤ 32 := by exact_mod_cast hn
  simp only [nsmul_eq_mul] at h1
  omega

/-- The accuracy analysis on inputs whose intermediate values fit in an `int`. -/
theorem print_accuracy_analysis_spec (tickets ticks : List Int)
    (hn1 : 1 ≤ tickets.length) (hn : tickets.length ≤ 32)
    (hlen : ticks.length = tickets.length)
    (hw : ∀ t ∈ tickets, 0 < t ∧ t * 100 ≤ INT_MAX)
    (hk : ∀ k ∈ ticks, 0 ≤ k ∧ k * 100 ≤ INT_MAX)
    (hksum : 0 < ticks.sum) :
    (∃ ratios, print_accuracy_analysis tickets ticks ticks.sum = .ok
      ⟨List.zipWith (spec_row tickets.sum ticks.sum) tickets ticks,
       abs_deviation_sum (List.zipWith (spec_row tickets.sum ticks.sum) tickets ticks),
       100 - abs_deviation_sum (List.zipWith (spec_row tickets.sum ticks.sum) tickets ticks)
          / (tickets.length : Int),
       ratios⟩) ∧
    0 ≤ abs_deviation_sum (List.zipWith (spec_row tickets.sum ticks.sum) tickets ticks) ∧
    abs_deviation_sum (List.zipWith (spec_row tickets.sum ticks.sum) tickets ticks)
      ≤ 100 * (tickets.length : Int) := by
  unfold INT_MAX at *
  have hne : tickets ≠ [] := by intro h0; subst h0; simp at hn1
  have hwsum : tickets.sum ≤ 2147483647 := sum_le_int_max hn (fun t ht => (hw t ht).2)
  have hWpos : 0 < tickets.sum := sum_pos_of_pos hne (fun t ht => (hw t ht).1)
  have hW : get_total_tickets tickets = tickets.sum := by
    rw [get_total_tickets_eq]; exact wrap32_of_range (by omega) hwsum
  have hlenZ : (tickets.length : Int) ≤ 32 := by exact_mod_cast hn
  have hlen1 : (1 : Int) ≤ (tickets.length : Int) := by exact_mod_cast hn1
  obtain ⟨hloop, hs0, hs1⟩ := accuracy_loop_spec tickets.sum ticks.sum hWpos hksum tickets ticks 0
    hlen
    (fun t ht => ⟨le_of_lt (hw t ht).1,
      List.single_le_sum (fun x hx => le_of_lt (hw x hx).1) t ht, (hw t ht).2⟩)
    (fun k hk1 => ⟨(hk k hk1).1,
      List.single_le_sum (fun x hx => (hk x hx).1) k hk1, (hk k hk1).2⟩)
    (le_refl 0) (by omega)
  rw [zero_add] at hloop
  generalize abs_deviation_sum (List.zipWith (spec_row tickets.sum ticks.sum) tickets ticks)
    = S at hloop hs0 hs1 ⊢
  have hmean0 : 0 ≤ S / (tickets.length : Int) := Int.ediv_nonneg hs0 (by omega)
  have hmean1 : S / (tickets.length : Int) ≤ 100 := by
    have : S / (tickets.length : Int) < 101 := Int.ediv_lt_of_lt_mul (by omega) (by omega)
    omega
  have hacc : wrap32 (100 - S / (tickets.length : Int)) = 100 - S / (tickets.length : Int) :=
    wrap32_of_range (by omega) (by omega)
  refine ⟨?_, hs0, hs1⟩
  unfold print_accuracy_analysis
  simp only [hW, hloop, cdiv_of_pos hs0 (show (0 : Int) < (tickets.length : Int) by omega), hacc]
  by_cases hmin : 0 < min_of (ticks.headD 0) ticks.tail
  · have he : expected_ratios tickets = .ok _ :=
      ratios_ok tickets (min_tickets_pos hne (fun t ht => (hw t ht).1))
    have ha : actual_ratios ticks = .ok _ := ratios_ok ticks hmin
    simp only [if_pos hmin, he, ha]
    exact ⟨_, rfl⟩
  · simp only [if_neg hmin]
    exact ⟨_, rfl⟩

theorem pct_eq_of_proportional {t k W T : Int} (hW : 0 < W) (hT : 0 < T)
    (h : k * W = t * T) : k * 100 / T = t * 100 / W := by
  calc k * 100 / T = (W * (k * 100)) / (W * T) := (Int.mul_ediv_mul_of_pos _ _ hW).symm
    _ = (T * (t * 100)) / (T * W) := by
        congr 1
        · calc W * (k * 100) = (k * W) * 100 := by ring
            _ = (t * T) * 100 := by rw [h]
            _ = T * (t * 100) := by ring
        · ring
    _ = t * 100 / W := Int.mul_ediv_mul_of_pos _ _ hT

theorem abs_deviation_sum_proportional (W T : Int) (hW : 0 < W) (hT : 0 < T) :
    ∀ tickets ticks : List Int,
      (∀ i, i < tickets.length → ticks.getD i 0 * W = tickets.getD i 0 * T) →
      abs_deviation_sum (List.zipWith (spec_row W T) tickets ticks) = 0 := by
  intro tickets
  induction tickets with
  | nil => intro ticks _; simp [abs_deviation_sum]
  | cons t ts ih =>
    intro ticks h
    cases ticks with
    | nil => simp [abs_deviation_sum]
    | cons k ks =>
      have h0 := h 0 (by simp)
      simp only [List.getD_cons_zero] at h0
      have hrec := ih ks (fun i hi => by
        have := h (i + 1) (by simpa using hi)
        simpa [List.getD_cons_succ] using this)
      have hp := pct_eq_of_proportional hW hT h0
      simp only [abs_deviation_sum] at hrec ⊢
      simp [spec_row, Int.fdiv_eq_ediv _ (le_of_lt hW), Int.fdiv_eq_ediv _ (le_of_lt hT), hp,
        hrec]

theorem expected_sum_bounds (W : Int) (hW : 0 < W) (l : List Int) (h : ∀ t ∈ l, 0 ≤ t) :
    (l.map (fun t => t * 100 / W)).sum * W ≤ 100 * l.sum ∧
    100 * l.sum ≤ ((l.map (fun t => t * 100 / W)).sum + (l.length : Int)) * W := by
  induction l with
  | nil => simp
  | cons t ts ih =>
    obtain ⟨ih1, ih2⟩ := ih (fun x hx => h x (List.mem_cons_of_mem _ hx))
    have h1 : t * 100 / W * W ≤ t * 100 := Int.ediv_mul_le _ (by omega)
    have h2 : t * 100 < (t * 100 / W + 1) * W := Int.lt_ediv_add_one_mul_self _ hW
    simp only [List.map_cons, List.sum_cons, List.length_cons, Nat.cast_add, Nat.cast_one]
    constructor
    · nlinarith
    · nlinarith

/-! ## Claims on the accuracy analysis -/

/-- C1 (as amended): for 1 to 32 slots with positive weights and non-negative final
ticks of positive sum, provided every `ticketWeight[i] * 100` and every
`finalTicks[i] * 100` is at most `INT_MAX`, the accuracy analysis returns a report whose
rows hold `floor(w*100/totalTickets)`, `floor(k*100/sum(finalTicks))` and their
difference, whose total deviation is the sum of the absolute deviations, and whose
accuracy is `100 - floor(total deviation / n)`. -/
theorem accuracy_analysis_formula (tickets ticks : List Int)
    (hn1 : 1 ≤ tickets.length) (hn : tickets.length ≤ 32)
    (hlen : ticks.length = tickets.length)
    (hw : ∀ t ∈ tickets, 0 < t ∧ t * 100 ≤ INT_MAX)
    (hk : ∀ k ∈ ticks, 0 ≤ k ∧ k * 100 ≤ INT_MAX)
    (hksum : 0 < ticks.sum) :
    ∃ r, print_accuracy_analysis tickets ticks ticks.sum = .ok r ∧
      r.rows = List.zipWith (spec_row tickets.sum ticks.sum) tickets ticks ∧
      r.total_deviation = abs_deviation_sum r.rows ∧
      r.accuracy = 100 - Int.fdiv (abs_deviation_sum r.rows) (tickets.length : Int) := by
  obtain ⟨⟨ratios, h⟩, _, _⟩ := print_accuracy_analysis_spec tickets ticks hn1 hn hlen hw hk hksum
  refine ⟨_, h, rfl, rfl, ?_⟩
  simp only
  rw [Int.fdiv_eq_ediv _ (by omega)]

/-- Witness for C1: weights `{30,20,10}` with ticks `{600,350,50}` give rows
`[50,60,+10]`, `[33,35,+2]`, `[16,5,-11]`, total deviation 23 and accuracy 93; weights
`{10,10}` with ticks `{500,500}` give deviations `[0,0]` and accuracy 100. -/
theorem accuracy_analysis_formula_witness :
    (∃ r, print_accuracy_analysis [30, 20, 10] [600, 350, 50] ([600, 350, 50] : List Int).sum
        = .ok r ∧
      r.rows = List.zipWith (spec_row ([30, 20, 10] : List Int).sum
        ([600, 350, 50] : List Int).sum) [30, 20, 10] [600, 350, 50] ∧
      r.total_deviation = abs_deviation_sum r.rows ∧
      r.accuracy = 100 - Int.fdiv (abs_deviation_sum r.rows) (([30, 20, 10] : List Int).length : Int)) ∧
    print_accuracy_analysis [30, 20, 10] [600, 350, 50] 1000
      = .ok ⟨[⟨50, 60, 10⟩, ⟨33, 35, 2⟩, ⟨16, 5, -11⟩], 23, 93,
          some ([30, 20, 10], [120, 70, 10])⟩ ∧
    print_accuracy_analysis [10, 10] [500, 500] 1000
      = .ok ⟨[⟨50, 50, 0⟩, ⟨50, 50, 0⟩], 0, 100, some ([10, 10], [10, 10])⟩ :=
  ⟨accuracy_analysis_formula [30, 20, 10] [600, 350, 50] (by decide) (by decide) (by decide)
      (by decide) (by decide) (by decide),
    by decide, by decide⟩

set_option maxRecDepth 1000000 in
/-- Counterexample for C1: the single weight 30000000 is accepted by resolution; with
final ticks `{1}` the code reports expected percentage -43 and accuracy -43, whereas
`floor(30000000 * 100 / 30000000)` is 100. -/
theorem accuracy_analysis_overflow :
    resolve ["30000000"] = .ok [30000000] ∧
    print_accuracy_analysis [30000000] [1] ([1] : List Int).sum
      = .ok ⟨[⟨-43, 100, 143⟩], 143, -43, some ([10], [10])⟩ ∧
    Int.fdiv (30000000 * 100) ([30000000] : List Int).sum = 100 :=
  ⟨by decide, by decide, by decide⟩

/-- C5 (as amended): under perfect proportionality
`finalTicks[i] * totalTickets = ticketWeight[i] * sum(finalTicks)` for every slot, and
provided every `ticketWeight[i] * 100` and every `finalTicks[i] * 100` is at most
`INT_MAX`, the accuracy analysis returns accuracy 100. -/
theorem accuracy_proportional (tickets ticks : List Int)
    (hn1 : 1 ≤ tickets.length) (hn : tickets.length ≤ 32)
    (hlen : ticks.length = tickets.length)
    (hw : ∀ t ∈ tickets, 0 < t ∧ t * 100 ≤ INT_MAX)
    (hk : ∀ k ∈ ticks, 0 ≤ k ∧ k * 100 ≤ INT_MAX)
    (hksum : 0 < ticks.sum)
    (hprop : ∀ i, i < tickets.length →
      ticks.getD i 0 * tickets.sum = tickets.getD i 0 * ticks.sum) :
    ∃ r, print_accuracy_analysis tickets ticks ticks.sum = .ok r ∧ r.accuracy = 100 := by
  obtain ⟨⟨ratios, h⟩, _, _⟩ := print_accuracy_analysis_spec tickets ticks hn1 hn hlen hw hk hksum
  have hne : tickets ≠ [] := by intro h0; subst h0; simp at hn1
  have hW : 0 < tickets.sum := sum_pos_of_pos hne (fun t ht => (hw t ht).1)
  refine ⟨_, h, ?_⟩
  simp only
  rw [abs_deviation_sum_proportional _ _ hW hksum tickets ticks hprop]
  simp

/-- Witness for C5: weights `{30,20,10}` with final ticks `{300,200,100}`. -/
theorem accuracy_proportional_witness :
    ∃ r, print_accuracy_analysis [30, 20, 10] [300, 200, 100] ([300, 200, 100] : List Int).sum
      = .ok r ∧ r.accuracy = 100 :=
  accuracy_proportional [30, 20, 10] [300, 200, 100] (by decide) (by decide) (by decide)
    (by decide) (by decide) (by decide)
    (by intro i hi
        have : i = 0 ∨ i = 1 ∨ i = 2 := by simp at hi; omega
        rcases this with rfl | rfl | rfl <;> decide)

set_option maxRecDepth 1000000 in
/-- Counterexample for C5: weight `{50000000}` with final ticks `{2}` is perfectly
proportional (one slot holding everything), yet the reported accuracy is 14. -/
theorem accuracy_proportional_overflow :
    resolve ["50000000"] = .ok [50000000] ∧
    (2 : Int) * ([50000000] : List Int).sum = 50000000 * ([2] : List Int).sum ∧
    print_accuracy_analysis [50000000] [2] ([2] : List Int).sum
      = .ok ⟨[⟨14, 100, 86⟩], 86, 14, some ([10], [10])⟩ :=
  ⟨by decide, by decide, by decide⟩

/-- C6 (as amended): for 1 to 32 positive weights with every `ticketWeight[i] * 100` at
most `INT_MAX`, the expected percentages `(process_tickets[i] * 100) / total_tickets`
are all computed and their sum differs from 100 by at most the number of slots. -/
theorem expected_pct_sum_near_100 (tickets : List Int)
    (hn1 : 1 ≤ tickets.length) (hn : tickets.length ≤ 32)
    (hw : ∀ t ∈ tickets, 0 < t ∧ t * 100 ≤ INT_MAX) :
    ∃ es, each_slot (expected_pct (get_total_tickets tickets)) tickets = .ok es ∧
      es.length = tickets.length ∧ |es.sum - 100| ≤ (tickets.length : Int) := by
  unfold INT_MAX at hw
  have hne : tickets ≠ [] := by intro h0; subst h0; simp at hn1
  have hWpos : 0 < tickets.sum := sum_pos_of_pos hne (fun t ht => (hw t ht).1)
  have hwsum : tickets.sum ≤ 2147483647 := sum_le_int_max hn (fun t ht => (hw t ht).2)
  have hW : get_total_tickets tickets = tickets.sum := by
    rw [get_total_tickets_eq]; exact wrap32_of_range (by omega) hwsum
  refine ⟨tickets.map (fun t => t * 100 / tickets.sum), ?_, by simp, ?_⟩
  · rw [hW]
    exact each_slot_ok _ _ tickets
      (fun t ht => expected_pct_eq (le_of_lt (hw t ht).1) (hw t ht).2 hWpos)
  · obtain ⟨h1, h2⟩ := expected_sum_bounds tickets.sum hWpos tickets
      (fun t ht => le_of_lt (hw t ht).1)
    have h3 : (tickets.map (fun t => t * 100 / tickets.sum)).sum ≤ 100 := by nlinarith
    have h4 : 100 ≤ (tickets.map (fun t => t * 100 / tickets.sum)).sum + (tickets.length : Int) := by
      nlinarith
    rw [abs_le]; constructor <;> omega

/-- Witness for C6: the default weights `{30,20,10}` give `50 + 33 + 16 = 99`. -/
theorem expected_pct_sum_near_100_witness :
    (∃ es, each_slot (expected_pct (get_total_tickets [30, 20, 10])) [30, 20, 10] = .ok es ∧
      es.length = ([30, 20, 10] : List Int).length ∧
      |es.sum - 100| ≤ (([30, 20, 10] : List Int).length : Int)) ∧
    each_slot (expected_pct (get_total_tickets [30, 20, 10])) [30, 20, 10] = .ok [50, 33, 16] :=
  ⟨expected_pct_sum_near_100 [30, 20, 10] (by decide) (by decide) (by decide), by decide⟩

set_option maxRecDepth 1000000 in
/-- Counterexample for C6: the single weight 25000000 is accepted by resolution and its
expected percentage is computed as -71, which differs from 100 by 171 > 1. -/
theorem expected_pct_sum_overflow :
    resolve ["25000000"] = .ok [25000000] ∧
    each_slot (expected_pct (get_total_tickets [25000000])) [25000000] = .ok [-71] ∧
    ¬ (|([-71] : List Int).sum - 100| ≤ (([25000000] : List Int).length : Int)) :=
  ⟨by decide, by decide, by decide⟩

set_option maxRecDepth 1000000 in
/-- C9: the accuracy score can be negative. The single weight 40000000 is accepted by
resolution; with final ticks `{1}` (non-negative, positive sum) the analysis reports
accuracy -7. -/
theorem accuracy_can_be_negative :
    ∃ (args : List String) (tickets ticks : List Int),
      resolve args = .ok tickets ∧
      1 ≤ tickets.length ∧ tickets.length ≤ 32 ∧ (∀ t ∈ tickets, 0 < t) ∧
      ticks.length = tickets.length ∧ (∀ k ∈ ticks, 0 ≤ k) ∧ 0 < ticks.sum ∧
      ∃ r, print_accuracy_analysis tickets ticks ticks.sum = .ok r ∧ r.accuracy < 0 :=
  ⟨["40000000"], [40000000], [1], by decide, by decide, by decide, by decide, by decide,
    by decide, by decide,
    ⟨[⟨-7, 100, 107⟩], 107, -7, some ([10], [10])⟩, by decide, by decide⟩

theorem min_of_map_mul {k : Int} (hk : 0 < k) (rest : List Int) :
    ∀ first : Int, min_of (first * k) (rest.map (fun t => t * k)) = min_of first rest * k := by
  induction rest with
  | nil => intro first; simp [min_of]
  | cons x xs ih =>
    intro first
    simp only [min_of, List.map_cons, List.foldl_cons] at ih ⊢
    by_cases h : x < first
    · have h2 : x * k < first * k := Int.mul_lt_mul_of_pos_right h hk
      rw [if_pos h, if_pos h2]; exact ih x
    · have h2 : ¬ x * k < first * k := by
        intro hlt
        exact h (lt_of_mul_lt_mul_right hlt (le_of_lt hk))
      rw [if_neg h, if_neg h2]; exact ih first

theorem expected_ratios_eq {tickets : List Int} (hne : tickets ≠ [])
    (hw : ∀ t ∈ tickets, 0 < t ∧ t * 10 ≤ 2147483647) :
    expected_ratios tickets = .ok (tickets.map
      (fun t => t * 10 / min_of (tickets.headD 0) tickets.tail)) := by
  have hm := min_tickets_pos hne (fun t ht => (hw t ht).1)
  unfold expected_ratios
  exact each_slot_ok _ _ tickets (fun t ht => by
    have := hw t ht
    rw [wrap32_of_range (by omega) this.2, cdiv_of_pos (by omega) hm])

/-- C8 (as amended): for 1 to 32 positive weights and a positive constant `k` such that
every `ticketWeight[i] * k * 10` is at most `INT_MAX`, the expected ratios
`(process_tickets[i] * 10) / min_tickets` of the scaled weights equal those of the
original weights, and both are computed without a trap. -/
theorem expected_ratios_scale_invariant (tickets : List Int) (k : Int)
    (hn1 : 1 ≤ tickets.length) (hn : tickets.length ≤ 32)
    (hw : ∀ t ∈ tickets, 0 < t) (hk : 0 < k)
    (hfit : ∀ t ∈ tickets, t * k * 10 ≤ INT_MAX) :
    expected_ratios (tickets.map (fun t => t * k)) = expected_ratios tickets ∧
    expected_ratios tickets = .ok (tickets.map
      (fun t => t * 10 / min_of (tickets.headD 0) tickets.tail)) := by
  unfold INT_MAX at hfit
  have hne : tickets ≠ [] := by intro h0; subst h0; simp at hn1
  have h1 : ∀ t ∈ tickets, 0 < t ∧ t * 10 ≤ 2147483647 := by
    intro t ht
    have h0 := hw t ht
    have := hfit t ht
    refine ⟨h0, ?_⟩
    nlinarith
  have horig := expected_ratios_eq hne h1
  have hne2 : tickets.map (fun t => t * k) ≠ [] := by simpa using hne
  have h2 : ∀ t ∈ tickets.map (fun t => t * k), 0 < t ∧ t * 10 ≤ 2147483647 := by
    intro t ht
    obtain ⟨a, ha, rfl⟩ := List.mem_map.mp ht
    exact ⟨Int.mul_pos (hw a ha) hk, hfit a ha⟩
  have hscaled := expected_ratios_eq hne2 h2
  refine ⟨?_, horig⟩
  rw [hscaled, horig]
  have hmin : min_of ((tickets.map (fun t => t * k)).headD 0) (tickets.map (fun t => t * k)).tail
      = min_of (tickets.headD 0) tickets.tail * k := by
    cases tickets with
    | nil => exact absurd rfl hne
    | cons t ts => simpa using min_of_map_mul hk ts t
  rw [hmin, List.map_map]
  congr 1
  apply List.map_congr_left
  intro t _
  simp only [Function.comp]
  calc t * k * 10 / (min_of (tickets.headD 0) tickets.tail * k)
      = k * (t * 10) / (k * min_of (tickets.headD 0) tickets.tail) := by
        congr 1 <;> ring
    _ = t * 10 / min_of (tickets.headD 0) tickets.tail := Int.mul_ediv_mul_of_pos _ _ hk

/-- Witness for C8: weights `{30,20,10}` scaled by 7. -/
theorem expected_ratios_scale_invariant_witness :
    expected_ratios (([30, 20, 10] : List Int).map (fun t => t * 7))
      = expected_ratios [30, 20, 10] ∧
    expected_ratios [30, 20, 10] = .ok [30, 20, 10] :=
  ⟨(expected_ratios_scale_invariant [30, 20, 10] 7 (by decide) (by decide) (by decide)
      (by decide) (by decide)).1, by decide⟩

set_option maxRecDepth 1000000 in
/-- Counterexample for C8: the weight `{1}` has expected ratio 10 (that is 1.0); scaled by
300000000 it is still a weight accepted by resolution, and its expected ratio is
computed as -4. -/
theorem expected_ratios_scale_overflow :
    resolve ["1"] = .ok [1] ∧ resolve ["300000000"] = .ok [300000000] ∧
    ([1] : List Int).map (fun t => t * 300000000) = [300000000] ∧
    expected_ratios [1] = .ok [10] ∧
    expected_ratios (([1] : List Int).map (fun t => t * 300000000)) = .ok [-4] :=
  ⟨by decide, by decide, by decide, by decide, by decide⟩

/-- Accuracy stays within `[0, 100]` whenever no intermediate product overflows. -/
theorem accuracy_range_without_overflow (tickets ticks : List Int)
    (hn1 : 1 ≤ tickets.length) (hn : tickets.length ≤ 32)
    (hlen : ticks.length = tickets.length)
    (hw : ∀ t ∈ tickets, 0 < t ∧ t * 100 ≤ INT_MAX)
    (hk : ∀ k ∈ ticks, 0 ≤ k ∧ k * 100 ≤ INT_MAX)
    (hksum : 0 < ticks.sum) :
    ∃ r, print_accuracy_analysis tickets ticks ticks.sum = .ok r ∧
      0 ≤ r.accuracy ∧ r.accuracy ≤ 100 := by
  obtain ⟨⟨ratios, h⟩, h0, h1⟩ :=
    print_accuracy_analysis_spec tickets ticks hn1 hn hlen hw hk hksum
  have hlen1 : (1 : Int) ≤ (tickets.length : Int) := by exact_mod_cast hn1
  refine ⟨_, h, ?_, ?_⟩
  · simp only
    have : abs_deviation_sum (List.zipWith (spec_row tickets.sum ticks.sum) tickets ticks)
        / (tickets.length : Int) < 101 := Int.ediv_lt_of_lt_mul (by omega) (by omega)
    omega
  · simp only
    have := Int.ediv_nonneg h0 (show (0 : Int) ≤ (tickets.length : Int) by omega)
    omega

/-! ## Tick extraction lemmas -/

theorem last_active_ticks_none (st : pstat) (pid : Int) (m : Nat)
    (h : ∀ i, i < m → st.inuse i ≠ 0 → st.pid i ≠ pid) : last_active_ticks st pid m = 0 := by
  induction m with
  | zero => rfl
  | succ m ih =>
    have hm : ¬ (st.inuse m ≠ 0 ∧ st.pid m = pid) := fun ⟨h1, h2⟩ => h m (by omega) h1 h2
    simp only [last_active_ticks, if_neg hm]
    exact ih (fun i hi => h i (by omega))

theorem last_active_ticks_last (st : pstat) (pid : Int) (m i : Nat) (hi : i < m)
    (hact : st.inuse i ≠ 0) (hpid : st.pid i = pid)
    (hlast : ∀ i2, i < i2 → i2 < m → st.inuse i2 ≠ 0 → st.pid i2 ≠ pid) :
    last_active_ticks st pid m = st.ticks i := by
  induction m with
  | zero => omega
  | succ m ih =>
    by_cases him : i = m
    · subst him
      simp [last_active_ticks, hact, hpid]
    · have hm : ¬ (st.inuse m ≠ 0 ∧ st.pid m = pid) :=
        fun ⟨h1, h2⟩ => hlast m (by omega) (by omega) h1 h2
      simp only [last_active_ticks, if_neg hm]
      exact ih (by omega) (fun i2 h1 h2 => hlast i2 h1 (by omega))

theorem find_slot_some (pid : Int) : ∀ (pids : List Int) (j0 j : Nat),
    find_slot pid pids j0 = some j → ∃ d, j = j0 + d ∧ pids[d]? = some pid := by
  intro pids
  induction pids with
  | nil => intro j0 j h; simp [find_slot] at h
  | cons p rest ih =>
    intro j0 j h
    simp only [find_slot] at h
    split at h
    · rename_i hp
      simp only [Option.some.injEq] at h
      exact ⟨0, by omega, by simp [hp]⟩
    · obtain ⟨d, hd, hget⟩ := ih (j0 + 1) j h
      exact ⟨d + 1, by omega, by simpa using hget⟩

theorem find_slot_none (pid : Int) : ∀ (pids : List Int) (j0 : Nat),
    find_slot pid pids j0 = none → pid ∉ pids := by
  intro pids
  induction pids with
  | nil => intro _ _; simp
  | cons p rest ih =>
    intro j0 h
    simp only [find_slot] at h
    split at h
    · cases h
    · rename_i hp
      simp only [List.mem_cons, not_or]
      exact ⟨hp, ih (j0 + 1) h⟩

theorem find_slot_not_mem (pid : Int) : ∀ (pids : List Int) (j0 : Nat),
    pid ∉ pids → find_slot pid pids j0 = none := by
  intro pids
  induction pids with
  | nil => intro _ _; rfl
  | cons p rest ih =>
    intro j0 h
    simp only [List.mem_cons, not_or] at h
    simp only [find_slot, if_neg h.1]
    exact ih (j0 + 1) h.2

theorem nodup_getElem?_inj {pids : List Int} (hnd : pids.Nodup) {i j : Nat} {a : Int}
    (hi : pids[i]? = some a) (hj : pids[j]? = some a) : i = j := by
  obtain ⟨h1, e1⟩ := List.getElem?_eq_some.mp hi
  obtain ⟨h2, e2⟩ := List.getElem?_eq_some.mp hj
  exact (List.Nodup.getElem_inj_iff hnd).mp (e1.trans e2.symm)

theorem extract_ticks_succ (pids : List Int) (st : pstat) (m : Nat) :
    extract_ticks pids st (m + 1) = extract_step pids st (extract_ticks pids st m) m := by
  simp [extract_ticks, List.range_succ, List.foldl_append]

theorem extract_step_ignored (pids : List Int) (st : pstat) (acc : List Int × Int) (i : Nat)
    (h : st.inuse i = 0 ∨ st.pid i ∉ pids) : extract_step pids st acc i = acc := by
  unfold extract_step
  rcases h with h | h
  · simp [h]
  · rw [find_slot_not_mem _ _ _ h]
    split <;> rfl

theorem extract_ticks_inv (pids : List Int) (st : pstat) (hnd : pids.Nodup) (m : Nat) :
    (extract_ticks pids st m).1.length = pids.length ∧
    ∀ (j : Nat) (pid : Int), pids[j]? = some pid →
      (extract_ticks pids st m).1[j]? = some (last_active_ticks st pid m) := by
  induction m with
  | zero =>
    refine ⟨by simp [extract_ticks], ?_⟩
    intro j pid hj
    obtain ⟨hlt, _⟩ := List.getElem?_eq_some.mp hj
    simp [extract_ticks, last_active_ticks, List.getElem?_replicate, hlt]
  | succ m ih =>
    obtain ⟨ihlen, ihget⟩ := ih
    rw [extract_ticks_succ]
    unfold extract_step
    by_cases hact : st.inuse m ≠ 0
    · rw [if_pos hact]
      cases hf : find_slot (st.pid m) pids 0 with
      | none =>
        have hnot := find_slot_none _ _ _ hf
        refine ⟨ihlen, ?_⟩
        intro j pid hj
        have hne : st.pid m ≠ pid := by
          intro he
          exact hnot (he ▸ List.mem_iff_getElem?.mpr ⟨j, hj⟩)
        simp only [last_active_ticks, if_neg (fun h : st.inuse m ≠ 0 ∧ st.pid m = pid => hne h.2)]
        exact ihget j pid hj
      | some j0 =>
        obtain ⟨d, hd, hget⟩ := find_slot_some _ _ _ _ hf
        have hd0 : j0 = d := by omega
        subst hd0
        refine ⟨by simp [ihlen], ?_⟩
        intro j pid hj
        simp only
        by_cases hjj : j0 = j
        · subst hjj
          have hpid : st.pid m = pid := by
            rw [hget] at hj; exact Option.some.inj hj
          have hlt : j0 < (extract_ticks pids st m).1.length := by
            rw [ihlen]; exact (List.getElem?_eq_some.mp hget).1
          simp [last_active_ticks, hact, hpid, List.getElem?_set, hlt]
        · have hne : st.pid m ≠ pid := by
            intro he
            exact hjj (nodup_getElem?_inj hnd (he ▸ hget) hj)
          simp only [last_active_ticks,
            if_neg (fun h : st.inuse m ≠ 0 ∧ st.pid m = pid => hne h.2)]
          rw [List.getElem?_set_ne hjj]
          exact ihget j pid hj
    · rw [if_neg hact]
      refine ⟨ihlen, ?_⟩
      intro j pid hj
      simp only [last_active_ticks, if_neg (fun h : st.inuse m ≠ 0 ∧ st.pid m = pid => hact h.1)]
      exact ihget j pid hj

theorem sum_set_of_zero (v : Int) : ∀ (l : List Int) (j : Nat), l[j]? = some 0 →
    (l.set j v).sum = l.sum + v := by
  intro l
  induction l with
  | nil => intro j h; simp at h
  | cons x xs ih =>
    intro j h
    cases j with
    | zero =>
      simp only [List.getElem?_cons_zero, Option.some.injEq] at h
      subst h; simp [add_comm]
    | succ j =>
      simp only [List.getElem?_cons_succ] at h
      simp only [List.set_cons_succ, List.sum_cons, ih j h]
      ring

theorem extract_ticks_total (pids : List Int) (st : pstat) (hnd : pids.Nodup) (m : Nat)
    (hdist : ∀ i1 i2, i1 < m → i2 < m → st.inuse i1 ≠ 0 → st.inuse i2 ≠ 0 →
      st.pid i1 = st.pid i2 → i1 = i2) :
    (extract_ticks pids st m).2 = wrap32 (extract_ticks pids st m).1.sum := by
  induction m with
  | zero => simp [extract_ticks]; decide
  | succ m ih =>
    have ih1 := ih (fun i1 i2 h1 h2 => hdist i1 i2 (by omega) (by omega))
    obtain ⟨_, hget0⟩ := extract_ticks_inv pids st hnd m
    rw [extract_ticks_succ]
    unfold extract_step
    by_cases hact : st.inuse m ≠ 0
    · rw [if_pos hact]
      cases hf : find_slot (st.pid m) pids 0 with
      | none => exact ih1
      | some j0 =>
        obtain ⟨d, hd, hget⟩ := find_slot_some _ _ _ _ hf
        have hd0 : j0 = d := by omega
        subst hd0
        have hzero : (extract_ticks pids st m).1[j0]? = some 0 := by
          rw [hget0 j0 _ hget, last_active_ticks_none]
          intro i hi hai hpi
          have := hdist i m (by omega) (by omega) hai hact hpi
          omega
        simp only
        rw [sum_set_of_zero _ _ _ hzero, ih1, wrap32_wrap32_add]
    · rw [if_neg hact]; exact ih1

/-! ## Claims on tick extraction, the final report and the live statistics text -/

/-- C7 (as amended): with pairwise distinct tracked worker ids, tick extraction leaves
one tick count per slot; slot `j` holds 0 when no active table entry carries its worker
id and otherwise the tick count of the (last) active entry carrying it; an entry that is
inactive or whose pid is not tracked changes neither the tick counts nor the total; and
when the active entries have pairwise distinct pids the total is the sum of the per-slot
tick counts reduced to a 32-bit `int`, hence equal to that sum whenever it fits. -/
theorem extract_ticks_join (process_pids : List Int) (st : pstat) (NPROC : Nat)
    (hnd : process_pids.Nodup) :
    (extract_ticks process_pids st NPROC).1.length = process_pids.length ∧
    (∀ (j : Nat) (pid : Int), process_pids[j]? = some pid →
      ((∀ i, i < NPROC → st.inuse i ≠ 0 → st.pid i ≠ pid) →
        (extract_ticks process_pids st NPROC).1[j]? = some 0) ∧
      (∀ i, i < NPROC → st.inuse i ≠ 0 → st.pid i = pid →
        (∀ i2, i < i2 → i2 < NPROC → st.inuse i2 ≠ 0 → st.pid i2 ≠ pid) →
        (extract_ticks process_pids st NPROC).1[j]? = some (st.ticks i))) ∧
    (∀ (acc : List Int × Int) (i : Nat), (st.inuse i = 0 ∨ st.pid i ∉ process_pids) →
      extract_step process_pids st acc i = acc) ∧
    ((∀ i1 i2, i1 < NPROC → i2 < NPROC → st.inuse i1 ≠ 0 → st.inuse i2 ≠ 0 →
        st.pid i1 = st.pid i2 → i1 = i2) →
      (extract_ticks process_pids st NPROC).2
          = wrap32 (extract_ticks process_pids st NPROC).1.sum ∧
      (INT_MIN ≤ (extract_ticks process_pids st NPROC).1.sum →
        (extract_ticks process_pids st NPROC).1.sum ≤ INT_MAX →
        (extract_ticks process_pids st NPROC).2
          = (extract_ticks process_pids st NPROC).1.sum)) := by
  obtain ⟨hlen, hget⟩ := extract_ticks_inv process_pids st hnd NPROC
  refine ⟨hlen, ?_, extract_step_ignored process_pids st, ?_⟩
  · intro j pid hj
    constructor
    · intro hnone
      rw [hget j pid hj, last_active_ticks_none st pid NPROC hnone]
    · intro i hi hact hpid hlast
      rw [hget j pid hj, last_active_ticks_last st pid NPROC i hi hact hpid hlast]
  · intro hdist
    have ht := extract_ticks_total process_pids st hnd NPROC hdist
    refine ⟨ht, ?_⟩
    intro h1 h2
    rw [ht]
    unfold INT_MIN at h1
    unfold INT_MAX at h2
    exact wrap32_of_range h1 h2

/-- Witness for C7: workers 4, 5, 6 against a table of 8 slots in which slots 3 and 4
are active with pids 4 and 5 (ticks 700 and 200), slot 5 holds pid 6 but is inactive,
and slot 0 is an active untracked process. -/
theorem extract_ticks_join_witness :
    extract_ticks [4, 5, 6]
      ⟨fun i => if i = 0 ∨ i = 3 ∨ i = 4 then 1 else 0, fun i => (i : Int) + 1,
        fun i => if i = 3 then 700 else if i = 4 then 200 else 55⟩ 8
      = ([700, 200, 0], 900) ∧
    (extract_ticks [4, 5, 6]
      ⟨fun i => if i = 0 ∨ i = 3 ∨ i = 4 then 1 else 0, fun i => (i : Int) + 1,
        fun i => if i = 3 then 700 else if i = 4 then 200 else 55⟩ 8).1.length
      = ([4, 5, 6] : List Int).length :=
  ⟨by decide,
    (extract_ticks_join [4, 5, 6]
      ⟨fun i => if i = 0 ∨ i = 3 ∨ i = 4 then 1 else 0, fun i => (i : Int) + 1,
        fun i => if i = 3 then 700 else if i = 4 then 200 else 55⟩ 8 (by decide)).1⟩

/-- Counterexample for C7: workers 1 and 2, both active with distinct pids and tick
counts 2147483647 and 1; the computed total is -2147483648 while the per-slot tick
counts sum to 2147483648. -/
theorem extract_ticks_total_overflow :
    extract_ticks [1, 2]
      ⟨fun _ => 1, fun i => (i : Int) + 1, fun i => if i = 0 then 2147483647 else 1⟩ 2
      = ([2147483647, 1], -2147483648) ∧
    ([2147483647, 1] : List Int).sum = 2147483648 :=
  ⟨by decide, by decide⟩

/-- C2 (failing input): with the default configuration, workers 4, 5, 6 and a final table
in which no entry is active, extraction yields tick counts `{0,0,0}` with total 0 and the
end of `main` stops with a divide error in `print_visual_results`; on the same table
`get_live_stats` returns the null pointer without dividing. -/
theorem main_final_divides_by_zero :
    extract_ticks [4, 5, 6] ⟨fun _ => 0, fun i => (i : Int) + 1, fun _ => 0⟩ 64
      = ([0, 0, 0], 0) ∧
    print_visual_results [0, 0, 0] 0 = .error .divide_error ∧
    main_final [30, 20, 10] [4, 5, 6] ⟨fun _ => 0, fun i => (i : Int) + 1, fun _ => 0⟩ 64
      = .error .divide_error ∧
    get_live_stats [4, 5, 6] ⟨fun _ => 0, fun i => (i : Int) + 1, fun _ => 0⟩ 64 = .ok none :=
  ⟨by decide, by decide, by decide, by decide⟩

set_option maxRecDepth 1000000 in
/-- C10 (failing input): 32 workers with pids 4..35, each active in the table with 100
ticks. `get_live_stats` stores 437 characters, more than the 200 bytes of
`stats_buffer`. -/
theorem get_live_stats_exceeds_buffer :
    ∃ text, get_live_stats ((List.range 32).map (fun i => (i : Int) + 4))
        ⟨fun i => if i < 35 then 1 else 0, fun i => (i : Int) + 1, fun _ => 100⟩ 64
        = .ok (some text) ∧
      text.length = 437 ∧ STATS_BUFFER_SIZE < text.length :=
  ⟨_, rfl, by decide, by decide⟩

/-- The digit loop never runs out of fuel: any fuel of at least `num` gives the same
digits as fuel `num`. -/
theorem digits_rev_fuel (n : Nat) : ∀ f, n ≤ f → digits_rev f n = digits_rev n n := by
  induction n using Nat.strong_induction_on with
  | _ n ih =>
    intro f hf
    cases n with
    | zero => cases f <;> simp [digits_rev]
    | succ n =>
      cases f with
      | zero => omega
      | succ f =>
        have hlt : (n + 1) / 10 < n + 1 := Nat.div_lt_self (by omega) (by omega)
        simp only [digits_rev, Nat.succ_ne_zero, if_false, List.cons.injEq, true_and]
        rw [ih _ hlt f (by omega), ih _ hlt n (by omega)]

end LotteryTest
